import Mathlib

/-!
Verification of the Schedule Candidate Generation & Multi-Criteria Selection
Engine of the ASKADEMIC repository.

The development shallowly embeds the two JavaScript implementations of the
engine:

* `Backend` models `src/backend/scheduleGenerator.js` together with the
  `/api/generate-schedules` handler of `src/backend/server.js`.  Clock times
  are embedded as rationals (the JavaScript code manipulates finite floats
  with `<`, `>`, subtraction by exact constants; the order-theoretic claims
  proved here are insensitive to the rational/float distinction).
* `FE` models the frontend scheduler `src/unnamed/part_001`
  (`frontend/src/utils/scheduler.js`).  Its time parser can produce `NaN`,
  so JavaScript numbers are embedded there as `JSNum` (a rational or `NaN`)
  and JavaScript strings as `List Char`.
-/

namespace Backend

/-- One weekly meeting occurrence.  The backend stores timeslots as 5-tuples
`[day, startStr, endStr, start, end]`; the two raw strings are never read by
the generator or the scorer, so only the semantically consumed fields are
carried here. -/
structure Timeslot where
  day : Char
  startTime : ℚ
  endTime : ℚ
deriving DecidableEq

/-- A section of a course (class `Section` of `scheduleGenerator.js`). -/
structure Section where
  courseCode : String
  sectionId : String
  timeslots : List Timeslot
deriving DecidableEq

/-- `Section.prototype.conflictsWith`: nested loops over the two timeslot
lists, returning `true` on the first pair with equal day and
`e1 > s2 && e2 > s1`. -/
def Section.conflictsWith (a b : Section) : Bool :=
  a.timeslots.any fun t1 => b.timeslots.any fun t2 =>
    t1.day == t2.day && decide (t1.endTime > t2.startTime)
      && decide (t2.endTime > t1.startTime)

/-- `product(...iterables)` of `scheduleGenerator.js`: with no factors it
yields the single empty tuple; otherwise, for each item of the head it
prepends the item to every tuple of the product of the tail. -/
def product : List (List α) → List (List α)
  | [] => [[]]
  | h :: t => h.flatMap fun item => (product t).map fun items => item :: items

/-- `combinations(c, 2)` of `scheduleGenerator.js` (itertools-style), which
for `r = 2` yields exactly the pairs `(c[i], c[j])` with `i < j` in
lexicographic index order; this is also the enumeration order of the
`i`/`j` double loop in the frontend scheduler. -/
def combinations2 : List α → List (α × α)
  | [] => []
  | x :: xs => (xs.map fun y => (x, y)) ++ combinations2 xs

/-- The inner conflict test of `generateSchedules`: some unordered pair of
the combination conflicts (the JavaScript `break` only short-circuits the
search and does not change the Boolean outcome). -/
def hasConflict (c : List Section) : Bool :=
  (combinations2 c).any fun p => p.1.conflictsWith p.2

/-- `generateSchedules(courses)` of `scheduleGenerator.js`, applied to
`Object.values(courses)` (the per-course section lists in key insertion
order): keep exactly the conflict-free tuples of the Cartesian product. -/
def generateSchedules (courseSections : List (List Section)) :
    List (List Section) :=
  (product courseSections).filter fun c => !hasConflict c

/-- Preference configuration as read by `scoreSchedule` in
`scheduleGenerator.js` (snake_case fields of the request body). -/
structure Prefs where
  no_before : Bool
  before_cutoff : ℚ
  no_after : Bool
  after_cutoff : ℚ
  avoid_friday : Bool
  avoid_back_to_back : Bool
  minimize_days : Bool
deriving DecidableEq

/-- All timeslots of a schedule, in schedule order (the flattening the
scoring helpers effectively traverse). -/
def allTimeslots : List Section → List Timeslot
  | [] => []
  | s :: rest => s.timeslots ++ allTimeslots rest

/-- `countMorningClasses`: reduce over the sections, adding the number of
timeslots with `start < cutoff`. -/
def countMorningClasses (schedule : List Section) (cutoff : ℚ) : ℕ :=
  schedule.foldl
    (fun acc sec =>
      acc + (sec.timeslots.filter fun ts => decide (ts.startTime < cutoff)).length)
    0

/-- `countEveningClasses`: reduce over the sections, adding the number of
timeslots with `start > cutoff`. -/
def countEveningClasses (schedule : List Section) (cutoff : ℚ) : ℕ :=
  schedule.foldl
    (fun acc sec =>
      acc + (sec.timeslots.filter fun ts => decide (ts.startTime > cutoff)).length)
    0

/-- `countFridayClasses`: number of timeslots whose day is `'F'`. -/
def countFridayClasses (schedule : List Section) : ℕ :=
  schedule.foldl
    (fun acc sec => acc + (sec.timeslots.filter fun ts => ts.day == 'F').length)
    0

/-- Insertion into the `dailyTimeslots` dictionary of `countBackToBack`:
a new day is appended (JavaScript object string keys iterate in insertion
order), an existing day has the slot pushed onto its list. -/
def addSlot : List (Char × List (ℚ × ℚ)) → Char → ℚ × ℚ →
    List (Char × List (ℚ × ℚ))
  | [], d, se => [(d, [se])]
  | (d', l) :: rest, d, se =>
    if d' = d then (d', l ++ [se]) :: rest else (d', l) :: addSlot rest d se

/-- The `dailyTimeslots` dictionary of `countBackToBack`: per-day
`(start, end)` pairs in push order, days in first-encounter order. -/
def groupByDay (schedule : List Section) : List (Char × List (ℚ × ℚ)) :=
  schedule.foldl
    (fun m sec =>
      sec.timeslots.foldl (fun m ts => addSlot m ts.day (ts.startTime, ts.endTime)) m)
    []

/-- The adjacent-pair scan of `countBackToBack` on one (sorted) day list:
each adjacent pair with `nextStart - prevEnd < 1.5/60` contributes one. -/
def countAdjacent : List (ℚ × ℚ) → ℕ
  | a :: b :: rest =>
    (if b.1 - a.2 < (1.5 : ℚ) / 60 then 1 else 0) + countAdjacent (b :: rest)
  | _ => 0

/-- `countBackToBack(schedule)`: group the timeslots by day, sort each day's
slots ascending by start time (JavaScript `sort((a, b) => a[0] - b[0])`, a
stable ascending sort, modelled by the stable `insertionSort`), and count
adjacent pairs closer than the 1.5-minute tolerance.  The source skips days
with fewer than two slots, on which the scan counts `0` anyway. -/
def countBackToBack (schedule : List Section) : ℕ :=
  (groupByDay schedule).foldl
    (fun acc g =>
      acc + countAdjacent (List.insertionSort (fun a b : ℚ × ℚ => a.1 ≤ b.1) g.2))
    0

/-- `countDaysUsed(schedule)`: size of the set of days used by any timeslot
(a JavaScript `Set`, i.e. the number of distinct days). -/
def countDaysUsed (schedule : List Section) : ℕ :=
  ((allTimeslots schedule).map (·.day)).dedup.length

/-- `scoreSchedule(schedule, prefs)`: sequential accumulation of the five
independently gated penalty terms. -/
def scoreSchedule (schedule : List Section) (prefs : Prefs) : ℕ :=
  let s0 : ℕ := 0
  let s1 := if prefs.no_before then s0 + countMorningClasses schedule prefs.before_cutoff else s0
  let s2 := if prefs.no_after then s1 + countEveningClasses schedule prefs.after_cutoff else s1
  let s3 := if prefs.avoid_friday then s2 + countFridayClasses schedule else s2
  let s4 := if prefs.avoid_back_to_back then s3 + countBackToBack schedule else s3
  if prefs.minimize_days then s4 + countDaysUsed schedule else s4

/-- Lookup of `sectionsByCourse[code]` in the `/api/generate-schedules`
handler: first (only) binding of the code in the processed catalog. -/
def lookupGroup (catalog : List (String × List Section)) (code : String) :
    Option (List Section) :=
  match catalog with
  | [] => none
  | (k, g) :: rest => if k = code then some g else lookupGroup rest code

/-- One step of building `coursesToSchedule`: a selected code absent from
the processed catalog is skipped; a present one (even with an *empty*
section list — an empty array is truthy in JavaScript) is added under its
key.  A duplicate selected code re-assigns the same value to the same
existing key, leaving the object unchanged. -/
def addCourse (catalog : List (String × List Section))
    (acc : List (String × List Section)) (code : String) :
    List (String × List Section) :=
  match lookupGroup catalog code with
  | none => acc
  | some g => if acc.any (fun e => e.1 = code) then acc else acc ++ [(code, g)]

/-- The `coursesToSchedule` object built by the handler: iterate the
selected codes in order, keeping those present in the processed catalog. -/
def buildCoursesToSchedule (catalog : List (String × List Section))
    (selected : List String) : List (String × List Section) :=
  selected.foldl (addCourse catalog) []

/-- The schedule generation step of the `/api/generate-schedules` handler:
filter the selection against the catalog, then enumerate conflict-free
combinations. -/
def schedulesFor (catalog : List (String × List Section))
    (selected : List String) : List (List Section) :=
  generateSchedules ((buildCoursesToSchedule catalog selected).map (·.2))

/-- `Math.min(...scores)` for a non-empty score list (the handler guards
`allSchedules.length > 0` before taking the minimum; `Math.min()` of an
empty spread would be `Infinity`, a case that never reaches this code). -/
def listMin : List ℕ → ℕ
  | [] => 0
  | x :: xs => xs.foldl Nat.min x

/-- The optimal-selection step of the handler: if any schedules exist,
score them all and keep, in order, exactly those whose score equals the
minimum (`allSchedules.filter((s, i) => scores[i] === minScore)`, modelled
by filtering the zip of schedules with their scores); otherwise reply with
the empty list. -/
def selectBest (allSchedules : List (List Section)) (preferences : Prefs) :
    List (List Section) :=
  if allSchedules.length > 0 then
    let scores := allSchedules.map fun s => scoreSchedule s preferences
    let minScore := listMin scores
    ((allSchedules.zip scores).filter fun p => p.2 == minScore).map (·.1)
  else []

end Backend

namespace FE

/-- A JavaScript number as manipulated by the frontend scheduler: either a
finite value (embedded as a rational) or `NaN`.  Infinities do not arise in
the embedded code paths. -/
inductive JSNum where
  | nan : JSNum
  | num : ℚ → JSNum
deriving DecidableEq

/-- JavaScript `a + b`: `NaN` is absorbing. -/
def JSNum.add : JSNum → JSNum → JSNum
  | .num a, .num b => .num (a + b)
  | _, _ => .nan

/-- JavaScript `a / d` for a non-zero finite literal divisor `d`
(here always `60`): `NaN / d = NaN`. -/
def JSNum.divC (a : JSNum) (d : ℚ) : JSNum :=
  match a with
  | .num q => .num (q / d)
  | .nan => .nan

/-- JavaScript `a < b` on numbers: any comparison with `NaN` is `false`. -/
def JSNum.ltJ : JSNum → JSNum → Bool
  | .num a, .num b => decide (a < b)
  | _, _ => false

/-- JavaScript `a === b` on numbers: `NaN === NaN` is `false`. -/
def JSNum.eqJ : JSNum → JSNum → Bool
  | .num a, .num b => a == b
  | _, _ => false

/-- JavaScript `x || 0` on a number (or on the `undefined` produced by
destructuring a too-short array, which behaves identically in the uses
modelled here): falsy values (`0`, `NaN`, `undefined`) become `0`. -/
def JSNum.orZero : JSNum → JSNum
  | .nan => .num 0
  | .num q => .num q

/-- JavaScript `s.split(sep)` for a one-character separator, on strings
modelled as character lists; `"".split(sep)` is `[""]`. -/
def jsSplit (sep : Char) (s : List Char) : List (List Char) :=
  s.foldr
    (fun c acc =>
      if c = sep then [] :: acc
      else
        match acc with
        | h :: t => (c :: h) :: t
        | [] => [[c]])
    [[]]

/-- Numeric value of a list of decimal digit characters. -/
def digitsVal (s : List Char) : ℕ :=
  s.foldl (fun acc c => acc * 10 + (c.toNat - 48)) 0

/-- Model of JavaScript `Number(s)` on the strings this code feeds it:
the empty string converts to `0`, a string of decimal digits to its value,
and anything else (letters, embedded spaces such as `"30 PM"`) to `NaN`.
Signs, decimal points and surrounding whitespace never occur in the split
time fragments handled here. -/
def jsNumber (s : List Char) : JSNum :=
  if s.isEmpty then .num 0
  else if s.all Char.isDigit then .num (digitsVal s)
  else .nan

/-- `parseTime(timeStr)` of the frontend scheduler (`src/unnamed/part_001`):
a missing or non-string argument, or the (falsy) empty string, yields `0`;
otherwise split off an optional `AM`/`PM` modifier, split the time on `:`,
convert both fragments with `Number`, advance a `PM` hour below 12 by 12,
map hour 12 with `AM` to 0, and return `hours + (minutes || 0) / 60`.
A missing minutes fragment destructures to `undefined`, which `|| 0`
collapses to `0` exactly as `NaN` does, so both are modelled as `.nan`. -/
def parseTime (timeStr : Option (List Char)) : JSNum :=
  match timeStr with
  | none => .num 0
  | some s =>
    if s.isEmpty then .num 0
    else
      let parts := jsSplit ' ' s
      let time := parts.headD []
      let modifier := parts.get? 1
      let tparts := jsSplit ':' time
      let hours0 := jsNumber (tparts.headD [])
      let minutes := match tparts.get? 1 with
        | some p => jsNumber p
        | none => .nan
      let hours1 := if modifier == some ['P', 'M'] && hours0.ltJ (.num 12)
        then hours0.add (.num 12) else hours0
      let hours2 := if modifier == some ['A', 'M'] && hours1.eqJ (.num 12)
        then .num 0 else hours1
      hours2.add (minutes.orZero.divC 60)

/-- `parseTime(t)` of `src/backend/scheduleGenerator.js`: split on `:`,
convert with `Number`, return `hours + minutes / 60`.  The `try`/`catch`
only fires when `t.split` itself throws (a missing or non-string `t`),
returning `0`; a parsed-to-`NaN` fragment flows through as `NaN`.  A
missing minutes fragment destructures to `undefined`, and
`undefined / 60` is `NaN`, so it is modelled as `.nan`. -/
def parseTimeB (t : Option (List Char)) : JSNum :=
  match t with
  | none => .num 0
  | some s =>
    let tparts := jsSplit ':' s
    let hours := jsNumber (tparts.headD [])
    let minutes := match tparts.get? 1 with
      | some p => jsNumber p
      | none => .nan
    hours.add (minutes.divC 60)

/-- Class `Timeslot` of the frontend scheduler: a day character plus parsed
start and end times (which may be `NaN` for unparsable strings). -/
structure FTimeslot where
  day : Char
  startT : JSNum
  endT : JSNum
deriving DecidableEq

/-- Class `Section` of the frontend scheduler. -/
structure FSection where
  courseCode : String
  sectionId : String
  timeslots : List FTimeslot
deriving DecidableEq

/-- `Section.prototype.conflictsWith` of the frontend scheduler: same day
and `t1.endTime > t2.startTime && t2.endTime > t1.startTime`, with
JavaScript `NaN` comparison semantics. -/
def FSection.conflictsWith (a b : FSection) : Bool :=
  a.timeslots.any fun t1 => b.timeslots.any fun t2 =>
    t1.day == t2.day && JSNum.ltJ t2.startT t1.endT && JSNum.ltJ t1.startT t2.endT

/-- `product(...arrays)` of the frontend scheduler:
`arrays.reduce((acc, array) => acc.flatMap(x => array.map(y => [...x, y])), [[]])`. -/
def productF (arrays : List (List α)) : List (List α) :=
  arrays.foldl (fun acc array => acc.flatMap fun x => array.map fun y => x ++ [y]) [[]]

/-- The conflict test of the frontend generator's filtering loop: the
`i < j` double loop returns `true` iff some unordered pair conflicts (the
`break`s only short-circuit; `combinations2` lists exactly the pairs the
double loop visits, in visit order). -/
def fHasConflict (c : List FSection) : Bool :=
  (Backend.combinations2 c).any fun p => p.1.conflictsWith p.2

/-- One raw catalog row as consumed by `generateSchedules(allCoursesData,
selectedCourseCodes)`: the `Course`, `Days`, `Start Time` and `End Time`
fields (the only ones the scheduler reads). -/
structure Row where
  course : String
  days : String
  startTime : String
  endTime : String
deriving DecidableEq

/-- `row.Course.match(/^[A-Za-z]+\d+/)`: a leading maximal run of ASCII
letters followed by a leading maximal run of ASCII digits; `none` when the
regular expression does not match (the match is `null`). -/
def baseCodeOf (s : String) : Option String :=
  let cs := s.data
  let letters := cs.takeWhile Char.isAlpha
  let digits := (cs.drop letters.length).takeWhile Char.isDigit
  if letters.isEmpty || digits.isEmpty then none
  else some (String.mk (letters ++ digits))

/-- JavaScript `String.prototype.trim` on a character list. -/
def jsTrim (s : List Char) : List Char :=
  ((s.dropWhile Char.isWhitespace).reverse.dropWhile Char.isWhitespace).reverse

/-- `row.Days.split(',').map(d => d.trim()).filter(d => d)` followed by
`day.charAt(0).toUpperCase()`: the day characters of a row, in order.
The filtered fragments are non-empty, so `charAt(0)` is their head. -/
def splitDaysF (s : String) : List Char :=
  ((((jsSplit ',' s.data).map jsTrim).filter fun d => !d.isEmpty).map
    fun d => (d.headD ' ').toUpper)

/-- One entry of the `sectionsData` object: section identifier, course code,
and the raw `(day, startStr, endStr)` triples pushed so far. -/
def RawEntry : Type := String × String × List (Char × String × String)

/-- Push a batch of raw timeslots for one row into `sectionsData`: an
existing section identifier has the triples appended to its list (keeping
its first-seen course code, which is determined by the identifier anyway);
a new identifier is appended at the end (JavaScript object insertion
order). -/
def pushRaw : List RawEntry → String → String →
    List (Char × String × String) → List RawEntry
  | [], sid, cc, raws => [(sid, cc, raws)]
  | (sid', cc', rs) :: rest, sid, cc, raws =>
    if sid' = sid then (sid', cc', rs ++ raws) :: rest
    else (sid', cc', rs) :: pushRaw rest sid cc raws

/-- The `sectionsData` accumulation loop of the frontend generator: rows
whose base code is among the selected codes contribute one raw triple per
day character (an entry is created even when the days field is empty, as in
the source). -/
def sectionsDataOf (rows : List Row) (codes : List String) : List RawEntry :=
  rows.foldl
    (fun m row =>
      match baseCodeOf row.course with
      | none => m
      | some bc =>
        if bc ∈ codes then
          pushRaw m row.course bc
            ((splitDaysF row.days).map fun d => (d, row.startTime, row.endTime))
        else m)
    []

/-- One step of the initialisation loop `courses[code] = []`: a new key is
appended with the empty group; re-assigning an existing key re-writes the
same empty value, leaving the object unchanged. -/
def initStep (acc : List (String × List FSection)) (c : String) :
    List (String × List FSection) :=
  if acc.any (fun e => e.1 = c) then acc else acc ++ [(c, [])]

/-- The initialisation loop `for (const code of selectedCourseCodes)
courses[code] = []`: object keys are the distinct selected codes in
first-occurrence order, each mapped to the empty list. -/
def initCourses (codes : List String) : List (String × List FSection) :=
  codes.foldl initStep []

/-- `courses[data.courseCode].push(section)`: append the section to the
group of its course code.  The key always exists (only selected base codes
reach `sectionsData`), so the empty-map case is unreachable. -/
def pushSection : List (String × List FSection) → String → FSection →
    List (String × List FSection)
  | [], _, _ => []
  | (k, l) :: rest, cc, sec =>
    if k = cc then (k, l ++ [sec]) :: rest
    else (k, l) :: pushSection rest cc sec

/-- The `courses` object of the frontend generator: initialise one empty
group per selected code, then build each `sectionsData` entry into a
`Section` (parsing its raw time strings) and push it onto its group. -/
def coursesF (rows : List Row) (codes : List String) :
    List (String × List FSection) :=
  (sectionsDataOf rows codes).foldl
    (fun cs entry =>
      let ts := entry.2.2.map fun r =>
        FTimeslot.mk r.1 (parseTime (some r.2.1.data)) (parseTime (some r.2.2.data))
      pushSection cs entry.2.1 (FSection.mk entry.2.1 entry.1 ts))
    (initCourses codes)

/-- `generateSchedules(allCoursesData, selectedCourseCodes)` of the
frontend scheduler: build the per-course groups, drop empty groups, return
`[]` when the number of non-empty groups differs from the number of
selected codes, and otherwise keep the conflict-free tuples of the
Cartesian product. -/
def generateSchedulesF (rows : List Row) (codes : List String) :
    List (List FSection) :=
  let courses := coursesF rows codes
  let sectionGroups := (courses.map (·.2)).filter fun g => !g.isEmpty
  if sectionGroups.length ≠ codes.length then []
  else (productF sectionGroups).filter fun combo => !fHasConflict combo

/-- Lookup of `courses[code]` in the frontend `courses` object. -/
def lookupF (courses : List (String × List FSection)) (code : String) :
    Option (List FSection) :=
  match courses with
  | [] => none
  | (k, g) :: rest => if k = code then some g else lookupF rest code

/-- The decimal digit character for `n < 10`. -/
def digitChar (n : ℕ) : Char := Char.ofNat (48 + n)

/-- Two-digit decimal rendering of `n < 100` (the `MM` field of a
well-formed clock time). -/
def fmt2 (n : ℕ) : List Char := [digitChar (n / 10), digitChar (n % 10)]

/-- Decimal rendering of an hour value `n ≤ 12` without padding. -/
def fmtHour (n : ℕ) : List Char := if n < 10 then [digitChar n] else fmt2 n

/-- A well-formed 12-hour clock string `"H:MM PM"` / `"H:MM AM"`. -/
def fmt12 (h m : ℕ) (pm : Bool) : List Char :=
  fmtHour h ++ ':' :: (fmt2 m ++ ' ' :: (if pm then ['P', 'M'] else ['A', 'M']))

end FE

namespace Backend

/-- Sample section: Monday 10:00–11:00. -/
def exA : Section := ⟨"A", "A-1", [⟨'M', 10, 11⟩]⟩

/-- Sample section: Monday 11:00–12:00 (touches `exA` end-to-start). -/
def exB : Section := ⟨"B", "B-1", [⟨'M', 11, 12⟩]⟩

/-- Sample section: Monday 10:30–11:30 (overlaps `exA`). -/
def exC : Section := ⟨"C", "C-1", [⟨'M', 10.5, 11.5⟩]⟩

/-- Sample section starting 1.4 minutes after `exA` ends. -/
def exGap14 : Section := ⟨"B", "B-1", [⟨'M', 11 + 1.4 / 60, 12⟩]⟩

/-- Sample section starting 2 minutes after `exA` ends. -/
def exGap2 : Section := ⟨"B", "B-1", [⟨'M', 11 + 2 / 60, 12⟩]⟩

/-- Sample preference configuration: only `no_before` with a 10:30 cutoff. -/
def prefsEx : Prefs := ⟨true, 10.5, false, 0, false, false, false⟩

end Backend

namespace Backend

/-- `conflictsWith` returns `true` exactly when some timeslot pair shares a
day and overlaps as open intervals. -/
theorem conflictsWith_eq_true_iff (a b : Section) :
    a.conflictsWith b = true ↔
      ∃ t1 ∈ a.timeslots, ∃ t2 ∈ b.timeslots,
        t1.day = t2.day ∧ t1.endTime > t2.startTime ∧ t2.endTime > t1.startTime := by
  simp [Section.conflictsWith, List.any_eq_true, Bool.and_eq_true,
    decide_eq_true_eq, and_assoc]

/-- The conflict test is symmetric. -/
theorem conflictsWith_symm (a b : Section) :
    a.conflictsWith b = b.conflictsWith a := by
  rw [Bool.eq_iff_iff, conflictsWith_eq_true_iff, conflictsWith_eq_true_iff]
  constructor
  · rintro ⟨t1, h1, t2, h2, hd, hx, hy⟩
    exact ⟨t2, h2, t1, h1, hd.symm, hy, hx⟩
  · rintro ⟨t1, h1, t2, h2, hd, hx, hy⟩
    exact ⟨t2, h2, t1, h1, hd.symm, hy, hx⟩

/-- The pairs enumerated by `combinations2` test exactly the pairwise
relation on the list. -/
theorem combinations2_any_eq_false {p : α → α → Bool} :
    ∀ l : List α,
      ((combinations2 l).any fun q => p q.1 q.2) = false ↔
        List.Pairwise (fun a b => p a b = false) l := by
  intro l
  induction l with
  | nil => simp [combinations2]
  | cons x xs ih =>
    simp only [combinations2, List.any_append, Bool.or_eq_false_iff,
      List.pairwise_cons, ih]
    constructor
    · rintro ⟨h1, h2⟩
      refine ⟨fun y hy => ?_, h2⟩
      have := List.any_eq_false.mp h1 (x, y) (List.mem_map_of_mem _ hy)
      simpa using this
    · rintro ⟨h1, h2⟩
      refine ⟨List.any_eq_false.mpr ?_, h2⟩
      rintro ⟨a, b⟩ hab
      simp only [List.mem_map] at hab
      obtain ⟨y, hy, heq⟩ := hab
      have hxa : x = a := congrArg Prod.fst heq
      have hyb : y = b := congrArg Prod.snd heq
      subst hxa; subst hyb
      simpa using h1 y hy

/-- Membership in the Cartesian product: a tuple of the product is exactly
a choice of one element from each factor, in order. -/
theorem mem_product {L : List (List α)} {l : List α} :
    l ∈ product L ↔ List.Forall₂ (fun x g => x ∈ g) l L := by
  induction L generalizing l with
  | nil =>
    simp only [product, List.mem_singleton]
    constructor
    · rintro rfl; exact List.Forall₂.nil
    · intro h; cases h; rfl
  | cons g t ih =>
    simp only [product, List.mem_flatMap, List.mem_map]
    constructor
    · rintro ⟨x, hx, items, hitems, rfl⟩
      exact List.Forall₂.cons hx (ih.mp hitems)
    · intro h
      cases h with
      | cons hx htail => exact ⟨_, hx, _, ih.mpr htail, rfl⟩

end Backend

/-- C10: applied to an empty courses map (no per-course section lists), the
backend `generateSchedules` returns the one-element list containing the
empty schedule: the empty Cartesian product yields a single empty tuple,
which has no conflicting pair and is retained. -/
theorem c10_empty_courses_singleton :
    Backend.generateSchedules [] = [[]] := rfl

/-- C3: the Conflict Detector returns `true` iff some timeslot of `a` and
some timeslot of `b` share a day and satisfy `a.end > b.start` and
`b.end > a.start`; in particular two same-day timeslots that touch
end-to-start (`a.end = b.start`) never conflict. -/
theorem c3_conflict_detector_contract (a b : Backend.Section) :
    (a.conflictsWith b = true ↔
      ∃ t1 ∈ a.timeslots, ∃ t2 ∈ b.timeslots,
        t1.day = t2.day ∧ t1.endTime > t2.startTime ∧ t2.endTime > t1.startTime) ∧
    (∀ (d : Char) (cc1 si1 cc2 si2 : String) (s1 m e2 : ℚ),
      (Backend.Section.mk cc1 si1 [⟨d, s1, m⟩]).conflictsWith
        (Backend.Section.mk cc2 si2 [⟨d, m, e2⟩]) = false) := by
  refine ⟨Backend.conflictsWith_eq_true_iff a b, ?_⟩
  intro d cc1 si1 cc2 si2 s1 m e2
  simp [Backend.Section.conflictsWith]

/-- C1: conflict soundness of the Combination Generator — every schedule
returned by the backend `generateSchedules` contains no conflicting pair:
for every unordered pair of its sections the Conflict Detector returns
`false` in both orientations. -/
theorem c1_conflict_soundness (courses : List (List Backend.Section)) :
    ∀ sched ∈ Backend.generateSchedules courses,
      List.Pairwise
        (fun a b => a.conflictsWith b = false ∧ b.conflictsWith a = false) sched := by
  intro sched hmem
  rw [Backend.generateSchedules, List.mem_filter] at hmem
  obtain ⟨-, hok⟩ := hmem
  have hfalse : Backend.hasConflict sched = false := by
    cases h : Backend.hasConflict sched with
    | false => rfl
    | true => rw [h] at hok; simp at hok
  have hpw := (Backend.combinations2_any_eq_false sched).mp hfalse
  exact hpw.imp fun hab => ⟨hab, by rw [Backend.conflictsWith_symm]; exact hab⟩

/-- The membership used by the C1 witness holds on a concrete catalog. -/
theorem c1_conflict_soundness_witness :
    List.Pairwise
      (fun a b : Backend.Section =>
        a.conflictsWith b = false ∧ b.conflictsWith a = false)
      [Backend.exA, Backend.exB] :=
  c1_conflict_soundness [[Backend.exA], [Backend.exB]]
    [Backend.exA, Backend.exB] (by decide)

namespace Backend

/-- Two single-timeslot sections on the same day: `countBackToBack` groups
them onto one day, sorts the two slots by start time, and counts the single
adjacent pair exactly when its gap is below the 1.5-minute tolerance. -/
theorem countBackToBack_pair (d : Char) (cc1 si1 cc2 si2 : String)
    (s1 e1 s2 e2 : ℚ) :
    countBackToBack [⟨cc1, si1, [⟨d, s1, e1⟩]⟩, ⟨cc2, si2, [⟨d, s2, e2⟩]⟩] =
      if s1 ≤ s2 then (if s2 - e1 < (1.5 : ℚ) / 60 then 1 else 0)
      else if s1 - e2 < (1.5 : ℚ) / 60 then 1 else 0 := by
  by_cases hc : s1 ≤ s2 <;>
    simp [countBackToBack, groupByDay, addSlot, List.insertionSort,
      List.orderedInsert, countAdjacent, hc]

end Backend

/-- C9: back-to-back counting boundary.  Two Monday timeslots 10:00–11:00
and 11:00–12:00 contribute exactly 1, a 1.4-minute gap contributes 1, a
2-minute gap contributes 0; and in general, for two same-day timeslots the
sorted adjacent pair contributes 1 exactly when
`nextStart - prevEnd < 1.5/60`. -/
theorem c9_backtoback_boundary :
    Backend.countBackToBack [Backend.exA, Backend.exB] = 1 ∧
    Backend.countBackToBack [Backend.exA, Backend.exGap14] = 1 ∧
    Backend.countBackToBack [Backend.exA, Backend.exGap2] = 0 ∧
    ∀ (d : Char) (cc1 si1 cc2 si2 : String) (s1 e1 s2 e2 : ℚ),
      Backend.countBackToBack
          [⟨cc1, si1, [⟨d, s1, e1⟩]⟩, ⟨cc2, si2, [⟨d, s2, e2⟩]⟩] =
        if s1 ≤ s2 then (if s2 - e1 < (1.5 : ℚ) / 60 then 1 else 0)
        else if s1 - e2 < (1.5 : ℚ) / 60 then 1 else 0 := by
  refine ⟨?_, ?_, ?_, Backend.countBackToBack_pair⟩
  · rw [Backend.exA, Backend.exB, Backend.countBackToBack_pair]
    norm_num
  · rw [Backend.exA, Backend.exGap14, Backend.countBackToBack_pair]
    norm_num
  · rw [Backend.exA, Backend.exGap2, Backend.countBackToBack_pair]
    norm_num

/-- C6 counterexample: the frontend time parser maps the unparsable
non-empty string `"x"` to `NaN`, not to `0`. -/
theorem c6_counterexample :
    FE.parseTime (some ['x']) = FE.JSNum.nan ∧
    FE.parseTime (some ['x']) ≠ FE.JSNum.num 0 := by decide

/-- C6 (amended): both time parsers are total and never raise; a missing
input yields `0`; the AM/PM-capable frontend parser also yields `0` on the
empty string; an unparsable non-empty string yields `NaN` in both parsers,
and the backend parser yields `NaN` even on the empty string (its minutes
fragment is missing). -/
theorem c6_amended_leniency :
    FE.parseTime none = FE.JSNum.num 0 ∧
    FE.parseTime (some []) = FE.JSNum.num 0 ∧
    FE.parseTime (some ['x']) = FE.JSNum.nan ∧
    FE.parseTimeB none = FE.JSNum.num 0 ∧
    FE.parseTimeB (some []) = FE.JSNum.nan ∧
    FE.parseTimeB (some ['x']) = FE.JSNum.nan := by decide

namespace FE

/-- Digit characters are digits, are distinct from the two separators, and
carry their value in their code point. -/
theorem digitChar_facts : ∀ n, n < 10 →
    (digitChar n).isDigit = true ∧ digitChar n ≠ ' ' ∧ digitChar n ≠ ':' ∧
      (digitChar n).toNat = 48 + n := by decide

/-- Unfolding of `jsSplit` on a cons cell. -/
theorem jsSplit_cons (sep c : Char) (cs : List Char) :
    jsSplit sep (c :: cs) =
      if c = sep then [] :: jsSplit sep cs
      else
        match jsSplit sep cs with
        | h :: t => (c :: h) :: t
        | [] => [[c]] := rfl

/-- Splitting a separator-free string returns the whole string. -/
theorem jsSplit_sepFree (sep : Char) :
    ∀ s : List Char, sep ∉ s → jsSplit sep s = [s] := by
  intro s
  induction s with
  | nil => intro _; rfl
  | cons c cs ih =>
    intro hmem
    have hc : ¬c = sep := fun e => hmem (e ▸ List.mem_cons_self c cs)
    rw [jsSplit_cons, if_neg hc, ih fun hm => hmem (List.mem_cons_of_mem _ hm)]

/-- Splitting at the first separator occurrence peels off the prefix. -/
theorem jsSplit_append (sep : Char) (a : List Char) :
    ∀ b : List Char, sep ∉ a →
      jsSplit sep (a ++ sep :: b) = a :: jsSplit sep b := by
  induction a with
  | nil => intro b _; rw [List.nil_append, jsSplit_cons, if_pos rfl]
  | cons c a' ih =>
    intro b hmem
    have hc : ¬c = sep := fun e => hmem (e ▸ List.mem_cons_self c a')
    rw [List.cons_append, jsSplit_cons, if_neg hc,
      ih b fun hm => hmem (List.mem_cons_of_mem _ hm)]

/-- The two-digit rendering of `n < 100` consists of digits, avoids both
separators, and converts back to `n`. -/
theorem fmt2_facts (n : ℕ) (hn : n < 100) :
    (∀ c ∈ fmt2 n, c.isDigit = true) ∧ ' ' ∉ fmt2 n ∧ ':' ∉ fmt2 n ∧
      digitsVal (fmt2 n) = n := by
  obtain ⟨d1, s1, c1, v1⟩ := digitChar_facts (n / 10) (by omega)
  obtain ⟨d2, s2, c2, v2⟩ := digitChar_facts (n % 10) (Nat.mod_lt _ (by norm_num))
  refine ⟨?_, ?_, ?_, ?_⟩
  · intro c hc
    simp only [fmt2, List.mem_cons, List.not_mem_nil, or_false] at hc
    rcases hc with rfl | rfl
    · exact d1
    · exact d2
  · intro hmem
    simp only [fmt2, List.mem_cons, List.not_mem_nil, or_false] at hmem
    rcases hmem with e | e
    · exact s1 e.symm
    · exact s2 e.symm
  · intro hmem
    simp only [fmt2, List.mem_cons, List.not_mem_nil, or_false] at hmem
    rcases hmem with e | e
    · exact c1 e.symm
    · exact c2 e.symm
  · show (0 * 10 + ((digitChar (n / 10)).toNat - 48)) * 10 +
        ((digitChar (n % 10)).toNat - 48) = n
    rw [v1, v2]
    omega

/-- Same facts for the unpadded hour rendering. -/
theorem fmtHour_facts (n : ℕ) (hn : n < 100) :
    fmtHour n ≠ [] ∧ (∀ c ∈ fmtHour n, c.isDigit = true) ∧
      ' ' ∉ fmtHour n ∧ ':' ∉ fmtHour n ∧ digitsVal (fmtHour n) = n := by
  rw [fmtHour]
  by_cases hlt : n < 10
  · obtain ⟨d1, s1, c1, v1⟩ := digitChar_facts n hlt
    rw [if_pos hlt]
    refine ⟨by simp, ?_, ?_, ?_, ?_⟩
    · intro c hc
      simp only [List.mem_cons, List.not_mem_nil, or_false] at hc
      exact hc ▸ d1
    · intro hmem
      simp only [List.mem_cons, List.not_mem_nil, or_false] at hmem
      exact s1 hmem.symm
    · intro hmem
      simp only [List.mem_cons, List.not_mem_nil, or_false] at hmem
      exact c1 hmem.symm
    · show 0 * 10 + ((digitChar n).toNat - 48) = n
      rw [v1]; omega
  · obtain ⟨hd, hs, hc, hv⟩ := fmt2_facts n hn
    rw [if_neg hlt]
    exact ⟨by simp [fmt2], hd, hs, hc, hv⟩

/-- `Number` converts a non-empty digit string to its decimal value. -/
theorem jsNumber_eq_num (s : List Char) (hne : s ≠ [])
    (hd : ∀ c ∈ s, c.isDigit = true) :
    jsNumber s = .num (digitsVal s) := by
  rw [jsNumber, if_neg (by simpa [List.isEmpty_iff] using hne),
    if_pos (List.all_eq_true.mpr fun c hc => hd c hc)]

/-- Evaluation of the frontend parser on a well-formed time string with an
arbitrary space-free modifier: the string splits exactly as the source
splits it and both numeric fragments convert to their decimal values. -/
theorem parseTime_fmt (h m : ℕ) (hh : h < 100) (hm : m < 100)
    (mod : List Char) (hmodsp : ' ' ∉ mod) :
    parseTime (some (fmtHour h ++ ':' :: (fmt2 m ++ ' ' :: mod))) =
      (let hours0 : JSNum := .num h
       let hours1 := if (some mod == some ['P', 'M']) && hours0.ltJ (.num 12)
         then hours0.add (.num 12) else hours0
       let hours2 := if (some mod == some ['A', 'M']) && hours1.eqJ (.num 12)
         then JSNum.num 0 else hours1
       hours2.add ((JSNum.num m).orZero.divC 60)) := by
  obtain ⟨hne, hdig, hsp, hcol, hval⟩ := fmtHour_facts h hh
  obtain ⟨hdig2, hsp2, hcol2, hval2⟩ := fmt2_facts m hm
  have hassoc : fmtHour h ++ ':' :: (fmt2 m ++ ' ' :: mod) =
      (fmtHour h ++ ':' :: fmt2 m) ++ ' ' :: mod := by
    simp
  have hspa : ' ' ∉ fmtHour h ++ ':' :: fmt2 m := by
    intro hmem
    rcases List.mem_append.mp hmem with hx | hx
    · exact hsp hx
    · rcases List.mem_cons.mp hx with e | e
      · exact absurd e (by decide)
      · exact hsp2 e
  have hsplitSpace : jsSplit ' ' (fmtHour h ++ ':' :: (fmt2 m ++ ' ' :: mod)) =
      [fmtHour h ++ ':' :: fmt2 m, mod] := by
    rw [hassoc, jsSplit_append ' ' _ mod hspa, jsSplit_sepFree ' ' mod hmodsp]
  have hsplitColon : jsSplit ':' (fmtHour h ++ ':' :: fmt2 m) =
      [fmtHour h, fmt2 m] := by
    rw [jsSplit_append ':' _ (fmt2 m) hcol, jsSplit_sepFree ':' (fmt2 m) hcol2]
  have hnum1 : jsNumber (fmtHour h) = .num h := by
    rw [jsNumber_eq_num _ hne hdig, hval]
  have hnum2 : jsNumber (fmt2 m) = .num m := by
    rw [jsNumber_eq_num _ (by simp [fmt2]) hdig2, hval2]
  have hisEmpty : (fmtHour h ++ ':' :: (fmt2 m ++ ' ' :: mod)).isEmpty = false := by
    cases hfh : fmtHour h with
    | nil => exact absurd hfh hne
    | cons c cs => simp [hfh]
  simp only [parseTime, hisEmpty, Bool.false_eq_true, if_false, hsplitSpace,
    List.headD_cons, List.get?, hsplitColon, hnum1, hnum2]

end FE

/-- C5: Time Normalizer 12-hour form — on every well-formed 12-hour string
`"H:MM PM"` or `"H:MM AM"` the frontend parser returns
`hours + minutes/60`, where hour 12 with `AM` maps to hour 0 and any `PM`
hour below 12 is advanced by 12 (so `"1:30 PM"` yields 13.5).  The backend
`parseTime` accepts only the 24-hour form; the AM/PM-capable Time
Normalizer of the system is the frontend one modelled here. -/
theorem c5_time_normalizer_12h :
    ∀ h : ℕ, h < 13 → 1 ≤ h → ∀ m : ℕ, m < 60 →
      FE.parseTime (some (FE.fmt12 h m true)) =
        FE.JSNum.num ((if h < 12 then (h : ℚ) + 12 else 12) + (m : ℚ) / 60) ∧
      FE.parseTime (some (FE.fmt12 h m false)) =
        FE.JSNum.num ((if h = 12 then 0 else (h : ℚ)) + (m : ℚ) / 60) := by
  intro h hh13 hh1 m hm
  have hPM := FE.parseTime_fmt h m (by omega) (by omega) ['P', 'M'] (by decide)
  have hAM := FE.parseTime_fmt h m (by omega) (by omega) ['A', 'M'] (by decide)
  have e1 : ((some ['P', 'M'] : Option (List Char)) == some ['P', 'M']) = true := by
    decide
  have e2 : ((some ['P', 'M'] : Option (List Char)) == some ['A', 'M']) = false := by
    decide
  have e3 : ((some ['A', 'M'] : Option (List Char)) == some ['P', 'M']) = false := by
    decide
  have e4 : ((some ['A', 'M'] : Option (List Char)) == some ['A', 'M']) = true := by
    decide
  have hfPM : FE.fmt12 h m true =
      FE.fmtHour h ++ ':' :: (FE.fmt2 m ++ ' ' :: ['P', 'M']) := rfl
  have hfAM : FE.fmt12 h m false =
      FE.fmtHour h ++ ':' :: (FE.fmt2 m ++ ' ' :: ['A', 'M']) := rfl
  constructor
  · rw [hfPM, hPM]
    simp only [e1, e2, Bool.true_and, Bool.false_and, Bool.false_eq_true, if_false,
      FE.JSNum.ltJ, FE.JSNum.add, FE.JSNum.orZero, FE.JSNum.divC]
    by_cases hlt : h < 12
    · have hq : ((h : ℚ) < 12) := by exact_mod_cast hlt
      simp [hq, hlt]
    · have h12 : h = 12 := by omega
      subst h12
      norm_num
  · rw [hfAM, hAM]
    simp only [e3, e4, Bool.true_and, Bool.false_and, Bool.false_eq_true, if_false,
      FE.JSNum.ltJ, FE.JSNum.eqJ, FE.JSNum.add, FE.JSNum.orZero, FE.JSNum.divC]
    by_cases h12 : h = 12
    · subst h12
      norm_num
    · have hq : ((h : ℚ) ≠ 12) := by exact_mod_cast h12
      simp [hq, h12]

/-- The C5 bounds hold at the concrete instance `"1:30 PM"` / `"1:30 AM"`. -/
theorem c5_time_normalizer_12h_witness :
    FE.parseTime (some (FE.fmt12 1 30 true)) = FE.JSNum.num (27 / 2) ∧
    FE.parseTime (some (FE.fmt12 1 30 false)) = FE.JSNum.num (3 / 2) := by
  obtain ⟨hpm, ham⟩ := c5_time_normalizer_12h 1 (by decide) (by decide) 30 (by decide)
  refine ⟨?_, ?_⟩
  · rw [hpm]; norm_num
  · rw [ham]; norm_num

namespace Backend

/-- Folding addition of a per-element count equals the sum of the mapped
counts. -/
theorem foldl_add_count (f : α → ℕ) (l : List α) :
    ∀ a : ℕ, l.foldl (fun acc s => acc + f s) a = a + (l.map f).sum := by
  induction l with
  | nil => intro a; simp
  | cons x xs ih =>
    intro a
    simp only [List.foldl_cons, List.map_cons, List.sum_cons, ih]
    omega

/-- Filtering the flattened timeslot list section by section. -/
theorem allTimeslots_filter_length (p : Timeslot → Bool) :
    ∀ l : List Section,
      ((allTimeslots l).filter p).length
        = (l.map fun s => (s.timeslots.filter p).length).sum := by
  intro l
  induction l with
  | nil => rfl
  | cons s rest ih => simp [allTimeslots, List.filter_append, ih]

/-- `countMorningClasses` counts the timeslots starting before the cutoff. -/
theorem countMorningClasses_eq (schedule : List Section) (cutoff : ℚ) :
    countMorningClasses schedule cutoff =
      ((allTimeslots schedule).filter fun ts => decide (ts.startTime < cutoff)).length := by
  rw [countMorningClasses, foldl_add_count, allTimeslots_filter_length, Nat.zero_add]

/-- `countEveningClasses` counts the timeslots starting after the cutoff. -/
theorem countEveningClasses_eq (schedule : List Section) (cutoff : ℚ) :
    countEveningClasses schedule cutoff =
      ((allTimeslots schedule).filter fun ts => decide (ts.startTime > cutoff)).length := by
  rw [countEveningClasses, foldl_add_count, allTimeslots_filter_length, Nat.zero_add]

/-- `countFridayClasses` counts the timeslots on day `'F'`. -/
theorem countFridayClasses_eq (schedule : List Section) :
    countFridayClasses schedule =
      ((allTimeslots schedule).filter fun ts => ts.day == 'F').length := by
  rw [countFridayClasses, foldl_add_count, allTimeslots_filter_length, Nat.zero_add]

end Backend

/-- C8: Preference Scorer formula — the score is the sum of the five
independently gated penalty terms (each 0 when its flag is false): the
count of timeslots starting before the morning cutoff, the count starting
after the evening cutoff, the count on Friday, the back-to-back count, and
the number of distinct days used.  The codomain `ℕ` expresses that the
total is a non-negative integer. -/
theorem c8_scorer_formula (schedule : List Backend.Section) (prefs : Backend.Prefs) :
    Backend.scoreSchedule schedule prefs =
        (if prefs.no_before then
          ((Backend.allTimeslots schedule).filter fun ts =>
            decide (ts.startTime < prefs.before_cutoff)).length else 0)
      + (if prefs.no_after then
          ((Backend.allTimeslots schedule).filter fun ts =>
            decide (ts.startTime > prefs.after_cutoff)).length else 0)
      + (if prefs.avoid_friday then
          ((Backend.allTimeslots schedule).filter fun ts => ts.day == 'F').length else 0)
      + (if prefs.avoid_back_to_back then Backend.countBackToBack schedule else 0)
      + (if prefs.minimize_days then
          ((Backend.allTimeslots schedule).map (·.day)).dedup.length else 0) := by
  simp only [Backend.scoreSchedule, Backend.countMorningClasses_eq,
    Backend.countEveningClasses_eq, Backend.countFridayClasses_eq,
    Backend.countDaysUsed]
  split_ifs <;> omega

namespace Backend

/-- Filtering the zip of a list with its mapped scores on the score
component and projecting back is a plain filter on the list. -/
theorem zip_map_filter (f : α → ℕ) (m : ℕ) :
    ∀ l : List α,
      ((l.zip (l.map f)).filter fun p => p.2 == m).map Prod.fst
        = l.filter fun a => f a == m := by
  intro l
  induction l with
  | nil => rfl
  | cons x xs ih =>
    simp only [List.map_cons, List.zip_cons_cons, List.filter_cons]
    cases hfx : (f x == m) with
    | false => simpa [hfx] using ih
    | true => simp [hfx, ih]

/-- A min-fold is bounded by its initial value. -/
theorem foldl_min_le_init (xs : List ℕ) : ∀ a : ℕ, xs.foldl Nat.min a ≤ a := by
  induction xs with
  | nil => intro a; exact Nat.le_refl a
  | cons y ys ih =>
    intro a
    exact Nat.le_trans (ih (Nat.min a y)) (Nat.min_le_left a y)

/-- A min-fold is bounded by every list element. -/
theorem foldl_min_le_mem (xs : List ℕ) :
    ∀ a x, x ∈ xs → xs.foldl Nat.min a ≤ x := by
  induction xs with
  | nil => intro a x hx; cases hx
  | cons y ys ih =>
    intro a x hx
    rcases List.mem_cons.mp hx with rfl | hx
    · exact Nat.le_trans (foldl_min_le_init ys (Nat.min a x)) (Nat.min_le_right a x)
    · exact ih (Nat.min a y) x hx

/-- A min-fold returns its initial value or a list element. -/
theorem foldl_min_cases (xs : List ℕ) :
    ∀ a : ℕ, xs.foldl Nat.min a = a ∨ xs.foldl Nat.min a ∈ xs := by
  induction xs with
  | nil => intro a; exact Or.inl rfl
  | cons y ys ih =>
    intro a
    simp only [List.foldl_cons]
    rcases ih (Nat.min a y) with h | h
    · have hconv : Nat.min a y = min a y := rfl
      rw [h, hconv]
      rcases Nat.le_total a y with hle | hle
      · exact Or.inl (min_eq_left hle)
      · refine Or.inr ?_
        rw [min_eq_right hle]
        exact List.mem_cons_self y ys
    · exact Or.inr (List.mem_cons_of_mem y h)

/-- `listMin` bounds every element of the list. -/
theorem listMin_le (l : List ℕ) : ∀ x ∈ l, listMin l ≤ x := by
  cases l with
  | nil => intro x hx; cases hx
  | cons y ys =>
    intro x hx
    rcases List.mem_cons.mp hx with rfl | hx
    · exact foldl_min_le_init ys x
    · exact foldl_min_le_mem ys y x hx

/-- `listMin` of a non-empty list is attained by some element. -/
theorem listMin_mem (l : List ℕ) (h : l ≠ []) : listMin l ∈ l := by
  cases l with
  | nil => exact absurd rfl h
  | cons y ys =>
    rcases foldl_min_cases ys y with hc | hc
    · rw [listMin, hc]; exact List.mem_cons_self y ys
    · exact List.mem_cons_of_mem y hc

end Backend

/-- C2: Optimal Selector contract — on the empty list the selection step
returns the empty list; in general it returns, in input order, exactly the
schedules whose score equals `listMin` of all the scores; and `listMin` is
genuinely the minimum: it bounds every schedule's score and is attained by
some schedule whenever the input is non-empty.  In particular tied
schedules are all returned. -/
theorem c2_optimal_selector (schedules : List (List Backend.Section))
    (preferences : Backend.Prefs) :
    Backend.selectBest [] preferences = [] ∧
    Backend.selectBest schedules preferences =
      schedules.filter (fun s =>
        Backend.scoreSchedule s preferences ==
          Backend.listMin (schedules.map fun t => Backend.scoreSchedule t preferences)) ∧
    (∀ s ∈ schedules,
      Backend.listMin (schedules.map fun t => Backend.scoreSchedule t preferences)
        ≤ Backend.scoreSchedule s preferences) ∧
    (schedules ≠ [] →
      ∃ s ∈ schedules,
        Backend.scoreSchedule s preferences =
          Backend.listMin (schedules.map fun t => Backend.scoreSchedule t preferences)) := by
  refine ⟨by simp [Backend.selectBest], ?_, ?_, ?_⟩
  · cases schedules with
    | nil => simp [Backend.selectBest]
    | cons x xs =>
      have hpos : ((x :: xs : List (List Backend.Section))).length > 0 := by simp
      simp only [Backend.selectBest, if_pos hpos]
      exact Backend.zip_map_filter _ _ _
  · intro s hs
    exact Backend.listMin_le _ _ (List.mem_map_of_mem _ hs)
  · intro hne
    have hmapne : schedules.map (fun t => Backend.scoreSchedule t preferences) ≠ [] := by
      simpa using hne
    have hmem := Backend.listMin_mem _ hmapne
    rw [List.mem_map] at hmem
    obtain ⟨s, hs, he⟩ := hmem
    exact ⟨s, hs, he⟩

/-- The C2 hypotheses hold on a concrete two-schedule input. -/
theorem c2_optimal_selector_witness :
    (Backend.listMin ([[Backend.exA], [Backend.exB]].map fun t =>
        Backend.scoreSchedule t Backend.prefsEx)
      ≤ Backend.scoreSchedule [Backend.exA] Backend.prefsEx) ∧
    ∃ s ∈ [[Backend.exA], [Backend.exB]],
      Backend.scoreSchedule s Backend.prefsEx =
        Backend.listMin ([[Backend.exA], [Backend.exB]].map fun t =>
          Backend.scoreSchedule t Backend.prefsEx) :=
  ⟨(c2_optimal_selector [[Backend.exA], [Backend.exB]] Backend.prefsEx).2.2.1
      [Backend.exA] (by decide),
   (c2_optimal_selector [[Backend.exA], [Backend.exB]] Backend.prefsEx).2.2.2
      (by decide)⟩

namespace Backend

/-- Key membership after one `addCourse` step. -/
theorem addCourse_keys_mem (catalog : List (String × List Section))
    (acc : List (String × List Section)) (code c : String) :
    c ∈ (addCourse catalog acc code).map Prod.fst ↔
      c ∈ acc.map Prod.fst ∨ (c = code ∧ (lookupGroup catalog c).isSome) := by
  rw [addCourse]
  cases hl : lookupGroup catalog code with
  | none =>
    constructor
    · exact Or.inl
    · rintro (hc | ⟨rfl, hs⟩)
      · exact hc
      · rw [hl] at hs; cases hs
  | some g =>
    dsimp only
    by_cases hany : acc.any (fun e => e.1 = code) = true
    · rw [if_pos hany]
      constructor
      · exact Or.inl
      · rintro (hc | ⟨rfl, _⟩)
        · exact hc
        · obtain ⟨e, he, heq⟩ := List.any_eq_true.mp hany
          have : e.1 = c := of_decide_eq_true heq
          exact this ▸ List.mem_map_of_mem Prod.fst he
    · rw [if_neg hany]
      simp only [List.map_append, List.map_cons, List.map_nil, List.mem_append,
        List.mem_cons, List.not_mem_nil, or_false]
      constructor
      · rintro (hc | rfl)
        · exact Or.inl hc
        · exact Or.inr ⟨rfl, by rw [hl]; rfl⟩
      · rintro (hc | ⟨rfl, _⟩)
        · exact Or.inl hc
        · exact Or.inr rfl

/-- Key membership of the accumulated `coursesToSchedule` object. -/
theorem build_keys_mem (catalog : List (String × List Section)) :
    ∀ (sel : List String) (acc : List (String × List Section)) (c : String),
      c ∈ ((sel.foldl (addCourse catalog) acc).map Prod.fst) ↔
        c ∈ acc.map Prod.fst ∨ (c ∈ sel ∧ (lookupGroup catalog c).isSome) := by
  intro sel
  induction sel with
  | nil => intro acc c; simp
  | cons code rest ih =>
    intro acc c
    rw [List.foldl_cons, ih, addCourse_keys_mem, List.mem_cons]
    by_cases hs : (lookupGroup catalog c).isSome <;> tauto

/-- `addCourse` preserves key distinctness. -/
theorem addCourse_keys_nodup (catalog : List (String × List Section))
    (acc : List (String × List Section)) (code : String)
    (h : (acc.map Prod.fst).Nodup) :
    ((addCourse catalog acc code).map Prod.fst).Nodup := by
  rw [addCourse]
  cases hl : lookupGroup catalog code with
  | none => exact h
  | some g =>
    dsimp only
    by_cases hany : acc.any (fun e => e.1 = code) = true
    · rw [if_pos hany]; exact h
    · rw [if_neg hany]
      have hnot : code ∉ acc.map Prod.fst := by
        intro hmem
        obtain ⟨e, he, he2⟩ := List.mem_map.mp hmem
        have := List.any_eq_false.mp (Bool.eq_false_iff.mpr hany) e he
        exact absurd (decide_eq_true he2) this
      simp [List.nodup_append, h, hnot]

/-- The keys of the accumulated `coursesToSchedule` object are distinct. -/
theorem build_keys_nodup (catalog : List (String × List Section)) :
    ∀ (sel : List String) (acc : List (String × List Section)),
      (acc.map Prod.fst).Nodup →
        ((sel.foldl (addCourse catalog) acc).map Prod.fst).Nodup := by
  intro sel
  induction sel with
  | nil => intro acc h; exact h
  | cons code rest ih =>
    intro acc h
    rw [List.foldl_cons]
    exact ih _ (addCourse_keys_nodup catalog acc code h)

end Backend

/-- C7 counterexample: with a catalog containing only course `A` and the
selection `["A", "B"]` (two distinct selected codes, `B` absent from the
catalog), the handler's generation step still returns the one-course
schedule `[[exA]]`, whose length 1 differs from the number of distinct
selected codes 2: the claimed cardinality fails because the handler
silently drops absent codes instead of returning no schedules. -/
theorem c7_counterexample :
    Backend.schedulesFor [("A", [Backend.exA])] ["A", "B"] = [[Backend.exA]] ∧
    ¬ ∀ sched ∈ Backend.schedulesFor [("A", [Backend.exA])] ["A", "B"],
        sched.length = (["A", "B"] : List String).dedup.length := by
  constructor
  · decide
  · decide

/-- C7 (amended): every schedule produced by the handler's generation step
has length exactly the number of entries of the `coursesToSchedule` object
— whose keys are distinct and are exactly the selected codes present in
the catalog — and draws exactly one section from each entry's section
list, in order.  (Selected codes absent from the catalog are silently
dropped by the handler rather than forcing an empty result.) -/
theorem c7_amended_cardinality (catalog : List (String × List Backend.Section))
    (selected : List String) :
    ((Backend.buildCoursesToSchedule catalog selected).map Prod.fst).Nodup ∧
    (∀ c, c ∈ (Backend.buildCoursesToSchedule catalog selected).map Prod.fst ↔
      c ∈ selected ∧ (Backend.lookupGroup catalog c).isSome) ∧
    ∀ sched ∈ Backend.schedulesFor catalog selected,
      sched.length = (Backend.buildCoursesToSchedule catalog selected).length ∧
      List.Forall₂ (fun sec e => sec ∈ e.2) sched
        (Backend.buildCoursesToSchedule catalog selected) := by
  refine ⟨?_, ?_, ?_⟩
  · exact Backend.build_keys_nodup catalog selected [] (by simp)
  · intro c
    rw [Backend.buildCoursesToSchedule, Backend.build_keys_mem]
    simp
  · intro sched hmem
    rw [Backend.schedulesFor, Backend.generateSchedules, List.mem_filter] at hmem
    obtain ⟨hprod, -⟩ := hmem
    have hf2 := Backend.mem_product.mp hprod
    have hf2' : List.Forall₂ (fun sec e => sec ∈ e.2) sched
        (Backend.buildCoursesToSchedule catalog selected) :=
      List.forall₂_map_right_iff.mp hf2
    exact ⟨by rw [hf2'.length_eq], hf2'⟩

/-- The C7 membership hypothesis holds on a concrete two-course catalog. -/
theorem c7_amended_cardinality_witness :
    ([Backend.exA, Backend.exB] : List Backend.Section).length =
      (Backend.buildCoursesToSchedule
        [("A", [Backend.exA]), ("B", [Backend.exB])] ["A", "B"]).length ∧
    List.Forall₂ (fun sec e => sec ∈ e.2) [Backend.exA, Backend.exB]
      (Backend.buildCoursesToSchedule
        [("A", [Backend.exA]), ("B", [Backend.exB])] ["A", "B"]) :=
  (c7_amended_cardinality [("A", [Backend.exA]), ("B", [Backend.exB])]
    ["A", "B"]).2.2 [Backend.exA, Backend.exB] (by decide)

namespace FE

/-- `pushSection` appends to an existing group and never changes the keys. -/
theorem pushSection_keys :
    ∀ (m : List (String × List FSection)) (cc : String) (sec : FSection),
      (pushSection m cc sec).map Prod.fst = m.map Prod.fst := by
  intro m
  induction m with
  | nil => intro cc sec; rfl
  | cons e rest ih =>
    intro cc sec
    obtain ⟨k, l⟩ := e
    rw [pushSection]
    by_cases hk : k = cc
    · rw [if_pos hk]
      simp
    · rw [if_neg hk]
      simp only [List.map_cons, ih]

/-- Building the sections into the courses object never changes its keys. -/
theorem coursesF_keys (rows : List Row) (codes : List String) :
    (coursesF rows codes).map Prod.fst = (initCourses codes).map Prod.fst := by
  rw [coursesF]
  suffices hgen : ∀ (entries : List RawEntry) (acc : List (String × List FSection)),
      ((entries.foldl
          (fun cs entry =>
            pushSection cs entry.2.1
              (FSection.mk entry.2.1 entry.1
                (entry.2.2.map fun r =>
                  FTimeslot.mk r.1 (parseTime (some r.2.1.data))
                    (parseTime (some r.2.2.data)))))
          acc).map Prod.fst) = acc.map Prod.fst by
    exact hgen _ _
  intro entries
  induction entries with
  | nil => intro acc; rfl
  | cons e rest ih =>
    intro acc
    rw [List.foldl_cons, ih, pushSection_keys]

/-- Key membership after one `initStep`. -/
theorem initStep_keys_mem (acc : List (String × List FSection)) (c s : String) :
    s ∈ (initStep acc c).map Prod.fst ↔ s ∈ acc.map Prod.fst ∨ s = c := by
  rw [initStep]
  by_cases hany : acc.any (fun e => e.1 = c) = true
  · rw [if_pos hany]
    constructor
    · exact Or.inl
    · rintro (hs | rfl)
      · exact hs
      · obtain ⟨e, he, heq⟩ := List.any_eq_true.mp hany
        have he2 : e.1 = s := of_decide_eq_true heq
        exact he2 ▸ List.mem_map_of_mem Prod.fst he
  · rw [if_neg hany]
    simp [List.mem_append]

/-- Key membership of the initialised courses object under an accumulator. -/
theorem initCourses_keys_mem :
    ∀ (codes : List String) (acc : List (String × List FSection)) (c : String),
      c ∈ (codes.foldl initStep acc).map Prod.fst ↔
        c ∈ acc.map Prod.fst ∨ c ∈ codes := by
  intro codes
  induction codes with
  | nil => intro acc c; simp
  | cons code rest ih =>
    intro acc c
    rw [List.foldl_cons, ih, initStep_keys_mem, List.mem_cons]
    tauto

/-- The initialised courses object has at most one entry per selected code. -/
theorem initCourses_length_aux :
    ∀ (codes : List String) (acc : List (String × List FSection)),
      (codes.foldl initStep acc).length ≤ acc.length + codes.length := by
  intro codes
  induction codes with
  | nil => intro acc; simp
  | cons code rest ih =>
    intro acc
    rw [List.foldl_cons]
    refine Nat.le_trans (ih (initStep acc code)) ?_
    have hstep : (initStep acc code).length ≤ acc.length + 1 := by
      rw [initStep]
      by_cases hany : acc.any (fun e => e.1 = code) = true
      · rw [if_pos hany]; omega
      · rw [if_neg hany]; simp
    simp only [List.length_cons]
    omega

/-- A successful lookup produces an entry of the object. -/
theorem lookupF_mem :
    ∀ (m : List (String × List FSection)) (c : String) (g : List FSection),
      lookupF m c = some g → (c, g) ∈ m := by
  intro m
  induction m with
  | nil => intro c g h; cases h
  | cons e rest ih =>
    intro c g h
    obtain ⟨k, l⟩ := e
    rw [lookupF] at h
    by_cases hk : k = c
    · rw [if_pos hk] at h
      obtain rfl : l = g := Option.some_injective _ h
      exact hk ▸ List.mem_cons_self _ _
    · rw [if_neg hk] at h
      exact List.mem_cons_of_mem _ (ih c g h)

/-- A key of the object can be looked up. -/
theorem lookupF_isSome :
    ∀ (m : List (String × List FSection)) (c : String),
      c ∈ m.map Prod.fst → ∃ g, lookupF m c = some g := by
  intro m
  induction m with
  | nil => intro c h; cases h
  | cons e rest ih =>
    intro c h
    obtain ⟨k, l⟩ := e
    rw [lookupF]
    by_cases hk : k = c
    · exact ⟨l, by rw [if_pos hk]⟩
    · rw [if_neg hk]
      rcases List.mem_cons.mp h with he | he
      · exact absurd he.symm hk
      · exact ih c he

/-- Filtering drops a failing element strictly. -/
theorem filter_length_lt {α : Type} (p : α → Bool) :
    ∀ (l : List α) (a : α), a ∈ l → p a = false →
      (l.filter p).length < l.length := by
  intro l
  induction l with
  | nil => intro a h; cases h
  | cons x xs ih =>
    intro a hmem hpa
    rw [List.filter_cons]
    rcases List.mem_cons.mp hmem with rfl | hmem
    · rw [hpa, if_neg (by simp)]
      have := List.length_filter_le p xs
      simp only [List.length_cons]
      omega
    · have hlt := ih a hmem hpa
      cases hpx : p x
      · rw [if_neg (by simp)]
        simp only [List.length_cons]
        omega
      · rw [if_pos rfl]
        simp only [List.length_cons]
        omega

end FE

/-- C4: Generator failure mode — in the frontend generator (the spec's
`generate(catalog, selectedCodes)` contract), if any selected code ends up
with an empty section group (which is what "absent from the Catalog" or
"maps to an empty Section list" both amount to, since every selected code
is initialised as a key), `generateSchedules` returns the empty list as a
normal value. -/
theorem c4_generator_empty_on_missing (rows : List FE.Row) (codes : List String)
    (h : ∃ c ∈ codes, ∀ g, FE.lookupF (FE.coursesF rows codes) c = some g → g = []) :
    FE.generateSchedulesF rows codes = [] := by
  obtain ⟨c, hc, hg⟩ := h
  have hkeys := FE.coursesF_keys rows codes
  have hinitmem : c ∈ (FE.initCourses codes).map Prod.fst := by
    rw [FE.initCourses]
    exact (FE.initCourses_keys_mem codes [] c).mpr (Or.inr hc)
  have hmemkeys : c ∈ (FE.coursesF rows codes).map Prod.fst := by
    rw [hkeys]; exact hinitmem
  obtain ⟨g, hlk⟩ := FE.lookupF_isSome _ c hmemkeys
  have hge : g = [] := hg g hlk
  subst hge
  have hentry : (c, ([] : List FE.FSection)) ∈ FE.coursesF rows codes :=
    FE.lookupF_mem _ c [] hlk
  have hvalmem : ([] : List FE.FSection) ∈ (FE.coursesF rows codes).map (fun x => x.2) :=
    List.mem_map_of_mem _ hentry
  have hlt := FE.filter_length_lt (fun g => !g.isEmpty) _ _ hvalmem (by rfl)
  have hlenmap : ((FE.coursesF rows codes).map (fun x => x.2)).length
      = (FE.coursesF rows codes).length := List.length_map _ _
  have hlenkeys : (FE.coursesF rows codes).length = (FE.initCourses codes).length := by
    have h2 := congrArg List.length hkeys
    simpa using h2
  have hlen2 : (FE.initCourses codes).length ≤ codes.length := by
    have h3 := FE.initCourses_length_aux codes []
    rw [FE.initCourses]
    simpa using h3
  have hcond : (((FE.coursesF rows codes).map (fun x => x.2)).filter
      (fun g => !g.isEmpty)).length ≠ codes.length := by omega
  simp only [FE.generateSchedulesF]
  rw [if_pos hcond]

/-- The C4 hypothesis holds concretely: with no catalog rows at all, the
selected code `"A"` has an empty group and generation returns `[]`. -/
theorem c4_generator_empty_on_missing_witness :
    FE.generateSchedulesF [] ["A"] = [] :=
  c4_generator_empty_on_missing [] ["A"]
    ⟨"A", by decide, by
      intro g hg
      have h0 : FE.lookupF (FE.coursesF [] ["A"]) "A" = some [] := by decide
      rw [h0] at hg
      exact (Option.some_injective _ hg).symm⟩
